import Mathlib

/-!
A shallow embedding of the `unreader` package (src/unreader.go): a rewindable
byte-stream reader over a fixed-capacity circular buffer.

Bytes are modelled as `Nat` (Go `byte` values), Go `int64`/`int` counters as
`Int`.  The external collaborators are modelled from their contracts:

* the circular buffer (`github.com/freb/circbuf`) from the spec's §6
  collaborator contract (append keeping the last `size` bytes, monotone
  `written` counter);
* the byte source (`io.Reader`) as a list of remaining bytes served from the
  front, reporting end-of-stream when empty;
* `unicode/utf8`'s `FullRune` and `DecodeRune`, translated from the Go
  standard library's lookup-table implementation.
-/

/-- Errors the reader can surface: the source's end-of-stream, and the two
`fmt.Errorf` rewind-range failures of `Unread`. -/
inductive Err where
  | eof
  | rewindTotalWritten
  | rewindBufferSize
  deriving DecidableEq, Repr

/-- The two `Unread` failures are the spec's `RewindRangeError`. -/
def Err.isRewindRange : Err → Bool
  | .rewindTotalWritten => true
  | .rewindBufferSize => true
  | .eof => false

/-- Modelled from the spec: the external Circular Byte Buffer collaborator
(`circbuf.Buffer`).  `data` is the retained window (`Bytes()`), oldest to
newest; `size` the fixed capacity (`Size()`); `written` the lifetime total
written (`TotalWritten()`). -/
structure CircBuf where
  size : Int
  data : List Nat
  written : Int
  deriving DecidableEq, Repr

/-- Modelled from the spec: `Write` appends, silently discarding the oldest
bytes beyond capacity, and always bumps the lifetime counter by the input
length. -/
def CircBuf.write (cb : CircBuf) (bs : List Nat) : CircBuf :=
  { cb with
    data := ((cb.data ++ bs).drop ((cb.data ++ bs).length - cb.size.toNat))
    written := cb.written + bs.length }

namespace utf8

/-- `utf8.MaxRune` (`'\U0010FFFF'`), the constant the Go code uses both as the
scratch-buffer length and as the loop bound in `ReadRune`. -/
def MaxRune : Nat := 0x10FFFF

/-- `utf8.RuneError`. -/
def RuneError : Nat := 0xFFFD

/-- Go's `utf8.first` lookup table: for a first byte, the packed
`acceptRange index * 16 + size` information byte (`as = 0xF0` for ASCII,
`xx = 0xF1` for invalid starts). -/
def first (b : Nat) : Nat :=
  if b ≤ 0x7F then 0xF0
  else if b ≤ 0xC1 then 0xF1
  else if b ≤ 0xDF then 0x02
  else if b = 0xE0 then 0x13
  else if b ≤ 0xEC then 0x03
  else if b = 0xED then 0x23
  else if b ≤ 0xEF then 0x03
  else if b = 0xF0 then 0x34
  else if b ≤ 0xF3 then 0x04
  else if b = 0xF4 then 0x44
  else 0xF1

/-- Lower bound of Go's `acceptRanges[i]`. -/
def acceptLo (i : Nat) : Nat :=
  if i = 1 then 0xA0 else if i = 3 then 0x90 else 0x80

/-- Upper bound of Go's `acceptRanges[i]`. -/
def acceptHi (i : Nat) : Nat :=
  if i = 2 then 0x9F else if i = 4 then 0x8F else 0xBF

/-- Go's `utf8.FullRune`: whether `p` begins with a full UTF-8 encoding of a
rune (an invalid prefix counts as full, since it decodes as `RuneError`). -/
def FullRune (p : List Nat) : Bool :=
  match p with
  | [] => false
  | b0 :: rest =>
    let x := first b0
    if x % 8 ≤ p.length then true
    else
      match rest with
      | [] => false
      | b1 :: rest2 =>
        if b1 < acceptLo (x / 16) || acceptHi (x / 16) < b1 then true
        else
          match rest2 with
          | [] => false
          | b2 :: _ => decide (b2 < 0x80) || decide (0xBF < b2)

/-- Go's `utf8.DecodeRune`: first code point of `p` and its size in bytes
(`(RuneError, 0)` on empty input, `(RuneError, 1)` on invalid input). -/
def DecodeRune (p : List Nat) : Nat × Nat :=
  match p with
  | [] => (RuneError, 0)
  | b0 :: rest =>
    let x := first b0
    if 0xF0 ≤ x then
      -- ASCII or invalid first byte
      if b0 ≤ 0x7F then (b0, 1) else (RuneError, 1)
    else
      let sz := x % 8
      if p.length < sz then (RuneError, 1)
      else
        match rest with
        | [] => (RuneError, 1)
        | b1 :: rest2 =>
          if b1 < acceptLo (x / 16) || acceptHi (x / 16) < b1 then (RuneError, 1)
          else if sz ≤ 2 then ((b0 % 0x20) * 0x40 + b1 % 0x40, 2)
          else
            match rest2 with
            | [] => (RuneError, 1)
            | b2 :: rest3 =>
              if b2 < 0x80 || 0xBF < b2 then (RuneError, 1)
              else if sz ≤ 3 then
                ((b0 % 0x10) * 0x1000 + (b1 % 0x40) * 0x40 + b2 % 0x40, 3)
              else
                match rest3 with
                | [] => (RuneError, 1)
                | b3 :: _ =>
                  if b3 < 0x80 || 0xBF < b3 then (RuneError, 1)
                  else
                    ((b0 % 8) * 0x40000 + (b1 % 0x40) * 0x1000 +
                      (b2 % 0x40) * 0x40 + b3 % 0x40, 4)

end utf8

/-- Modelled from the spec: the abstract byte source (`io.Reader`), as the
list of bytes it has yet to produce.  A read of `k` bytes serves up to `k`
bytes from the front, and reports end-of-stream when nothing remains. -/
def sourceRead (src : List Nat) (k : Nat) : List Nat × Option Err × List Nat :=
  if src.isEmpty then ([], some Err.eof, src)
  else (src.take k, none, src.drop k)

/-- The `unreader` struct.  `src` is the remaining source stream and `fetches`
counts how many times the source has been queried (instrumentation for the
"source not asked again" properties); `runeBuf` is the persistent rune
scratch area (conceptually `utf8.MaxRune` bytes, zero-initialised), indexed
as a function. -/
structure Unreader where
  cb : CircBuf
  src : List Nat
  fetches : Nat
  bytesRead : Int
  cursor : Int
  runeBuf : Nat → Nat
  runePos : Nat

/-- A freshly initialised reader (the struct literal inside `NewUnreader`). -/
def initU (size : Int) (src : List Nat) : Unreader :=
  { cb := { size := size, data := [], written := 0 }
    src := src
    fetches := 0
    bytesRead := 0
    cursor := 0
    runeBuf := fun _ => 0
    runePos := 0 }

/-- `NewUnreader`: fails when the buffer collaborator rejects the capacity
(modelled from the spec: `ConfigurationError` on non-positive size). -/
def NewUnreader (size : Int) (src : List Nat) : Option Unreader :=
  if size ≤ 0 then none else some (initU size src)

/-- `Bytes()`. -/
def Unreader.Bytes (u : Unreader) : List Nat := u.cb.data

/-- `BytesRead()`. -/
def Unreader.BytesRead (u : Unreader) : Int := u.bytesRead

/-- `Cursor()`. -/
def Unreader.Cursor (u : Unreader) : Int := u.cursor

/-- `Unread(c)`: move the cursor back by `c` (to `newCursor = cursor - c`,
inlined below) after the two range checks against the buffer's lifetime
total and capacity. -/
def Unreader.Unread (u : Unreader) (c : Int) : Option Err × Unreader :=
  if u.cb.written < u.bytesRead - (u.cursor - c) then
    (some Err.rewindTotalWritten, u)
  else if u.cb.size < u.bytesRead - (u.cursor - c) then
    (some Err.rewindBufferSize, u)
  else (none, { u with cursor := u.cursor - c })

/-- `Read(p)` with `k = len(p)`: returns the bytes delivered to the caller,
the error, and the new state.  When `cursor == bytesRead` it pulls fresh
bytes from the source, mirrors them into the buffer and advances both
counters; otherwise it replays the last `bytesRead - cursor` bytes of the
buffer's retained window. -/
def Unreader.Read (u : Unreader) (k : Nat) : List Nat × Option Err × Unreader :=
  if k = 0 then ([], none, u)
  else if u.cursor = u.bytesRead then
    let r := sourceRead u.src k
    (r.1, r.2.1,
      { u with
        src := r.2.2
        fetches := u.fetches + 1
        cb := u.cb.write r.1
        bytesRead := u.bytesRead + r.1.length
        cursor := u.cursor + r.1.length })
  else
    let b := u.cb.data
    let s := ((b.length : Int) - (u.bytesRead - u.cursor)).toNat
    let out := (b.drop s).take k
    (out, none, { u with cursor := u.cursor + out.length })

/-- The first `k` scratch bytes, `runeBuf[:k]`. -/
def runeView (u : Unreader) (k : Nat) : List Nat :=
  (List.range k).map u.runeBuf

/-- Result of the byte-at-a-time loop inside `ReadRune`: the aborting error
(if any), the state, the final fill position, and the number of single-byte
`Read` calls performed (instrumentation). -/
structure RuneLoopOut where
  err : Option Err
  state : Unreader
  pos : Nat
  reads : Nat

/-- The `for !utf8.FullRune(...) && runePos < utf8.MaxRune` loop of
`ReadRune`, with the loop variable threaded explicitly and fuel equal to the
loop bound (the guard stops the loop before fuel can run out). -/
def readRuneLoop (u : Unreader) (pos : Nat) : Nat → RuneLoopOut
  | 0 => ⟨none, u, pos, 0⟩
  | fuel + 1 =>
    if utf8.FullRune (runeView u pos) ∨ utf8.MaxRune ≤ pos then ⟨none, u, pos, 0⟩
    else
      let r := u.Read 1
      match r.2.1 with
      | some e => ⟨some e, r.2.2, pos, 1⟩
      | none =>
        let u2 := { r.2.2 with
          runeBuf := fun i => if i = pos then r.1.headD (r.2.2.runeBuf i)
                              else r.2.2.runeBuf i }
        let o := readRuneLoop u2 (pos + 1) fuel
        ⟨o.err, o.state, o.pos, o.reads + 1⟩

/-- `ReadRune()`: reset the scratch position, run the byte-at-a-time loop,
abort on a read error, otherwise decode `runeBuf[:runePos+1]`. -/
def Unreader.ReadRune (u : Unreader) : (Nat × Nat × Option Err) × Unreader :=
  let o := readRuneLoop { u with runePos := 0 } 0 utf8.MaxRune
  let u2 := { o.state with runePos := o.pos }
  match o.err with
  | some e => ((0, 0, some e), u2)
  | none =>
    let d := utf8.DecodeRune (runeView u2 (o.pos + 1))
    ((d.1, d.2, none), u2)

/-- `LastBytes(n)`: the slice `b[s:e]` of the retained window, where `e` cuts
off the trailing pending bytes and `s` keeps at most `n` bytes before `e`. -/
def Unreader.LastBytes (u : Unreader) (n : Int) : List Nat :=
  let b := u.Bytes
  let l : Int := b.length
  let offset := u.bytesRead - u.cursor
  let s : Int := if l - offset - n > 0 then l - offset - n else 0
  let e : Int := l - offset
  (b.take e.toNat).drop s.toNat

/-- One consumer call: the argument of `read` is the destination length, the
argument of `unread` the (Go `int64`) count; `lastBytes` reads state only. -/
inductive Op where
  | read (k : Nat)
  | unread (c : Int)
  | readRune
  | lastBytes (n : Int)

/-- State reached after one consumer call. -/
def Unreader.applyOp (u : Unreader) : Op → Unreader
  | .read k => (u.Read k).2.2
  | .unread c => (u.Unread c).2
  | .readRune => (u.ReadRune).2
  | .lastBytes _ => u

/-- State reached after a sequence of consumer calls. -/
def Unreader.run (u : Unreader) : List Op → Unreader
  | [] => u
  | op :: ops => (u.applyOp op).run ops

/-- Ops whose `Unread` arguments are nonnegative counts. -/
def Op.nonnegUnread : Op → Bool
  | .unread c => decide (0 ≤ c)
  | _ => true

/-- A sequence of reads of the given lengths, concatenating the bytes
delivered to the caller. -/
def Unreader.readAll (u : Unreader) : List Nat → List Nat × Unreader
  | [] => ([], u)
  | k :: ks =>
    let r := u.Read k
    let rest := r.2.2.readAll ks
    (r.1 ++ rest.1, rest.2)

/-- `LastBytes` as the spec words it: take the buffer's retained window,
subtract the trailing `pending = bytesRead - cursor` bytes, then take up to
the last `n` bytes of what remains. -/
def lastBytesSpec (u : Unreader) (n : Int) : List Nat :=
  let w := u.cb.data.take (u.cb.data.length - (u.bytesRead - u.cursor).toNat)
  w.drop (w.length - n.toNat)

/-- State invariant tying a reader to the original source stream `s0`: the
counters are nonnegative, the buffer's lifetime total equals `bytesRead`,
the remaining source is the original stream minus the fetched prefix, the
retained window is the last `min(bytesRead, size)` fetched bytes, and the
pending span fits inside the retained window. -/
def ReaderInv (s0 : List Nat) (u : Unreader) : Prop :=
  0 ≤ u.bytesRead ∧
  0 ≤ u.cursor ∧
  u.cb.written = u.bytesRead ∧
  0 < u.cb.size ∧
  u.bytesRead.toNat ≤ s0.length ∧
  u.src = s0.drop u.bytesRead.toNat ∧
  u.cb.data =
    (s0.take u.bytesRead.toNat).drop (u.bytesRead.toNat - u.cb.size.toNat) ∧
  u.bytesRead - u.cursor ≤ (u.cb.data.length : Int)

/-- The rune loop as `ReadRune` invokes it: from a reset scratch position,
with the code's `utf8.MaxRune` iteration bound as fuel. -/
def runeLoopOf (u : Unreader) : RuneLoopOut :=
  readRuneLoop { u with runePos := 0 } 0 utf8.MaxRune

/-! ## Helper lemmas -/

lemma utf8_first_mod_le (b : Nat) : utf8.first b % 8 ≤ 4 := by
  unfold utf8.first
  split_ifs <;> norm_num

lemma utf8_fullRune_of_len (p : List Nat) (h : 4 ≤ p.length) :
    utf8.FullRune p = true := by
  match p with
  | [] => simp at h
  | b0 :: rest =>
    have hb := utf8_first_mod_le b0
    simp only [utf8.FullRune]
    rw [if_pos (by simp only [List.length_cons] at h ⊢; omega)]

lemma runeView_length (u : Unreader) (k : Nat) : (runeView u k).length = k := by
  simp [runeView]

lemma readRuneLoop_bounds (fuel : Nat) :
    ∀ (u : Unreader) (pos : Nat),
      (readRuneLoop u pos fuel).reads ≤ 4 - pos ∧
      (readRuneLoop u pos fuel).pos ≤ max pos 4 := by
  induction fuel with
  | zero => intro u pos; simp [readRuneLoop]
  | succ n ih =>
    intro u pos
    by_cases hpos : 4 ≤ pos
    · have hfull : utf8.FullRune (runeView u pos) = true :=
        utf8_fullRune_of_len _ (by rw [runeView_length]; omega)
      simp [readRuneLoop, hfull]
    · unfold readRuneLoop
      split
      · simp
      · cases hread : (u.Read 1).2.1 with
        | some e => simp [hread]; omega
        | none =>
          simp only [hread]
          constructor
          · exact Nat.le_trans
              (Nat.add_le_add_right ((ih _ (pos + 1)).1) 1) (by omega)
          · exact Nat.le_trans ((ih _ (pos + 1)).2) (by omega)


lemma readRuneLoop_err_read (fuel : Nat) :
    ∀ (u : Unreader) (pos : Nat) (e : Err),
      (readRuneLoop u pos fuel).err = some e →
      ∃ v : Unreader, (v.Read 1).2.1 = some e ∧
        (readRuneLoop u pos fuel).state = (v.Read 1).2.2 := by
  induction fuel with
  | zero => intro u pos e h; simp [readRuneLoop] at h
  | succ n ih =>
    intro u pos e h
    unfold readRuneLoop at h ⊢
    by_cases hg : utf8.FullRune (runeView u pos) = true ∨ utf8.MaxRune ≤ pos
    · rw [if_pos hg] at h; simp at h
    · rw [if_neg hg] at h ⊢
      cases hread : (u.Read 1).2.1 with
      | some e0 =>
        simp only [hread] at h ⊢
        refine ⟨u, ?_, rfl⟩
        rw [hread]
        simpa using h
      | none =>
        simp only [hread] at h ⊢
        exact ih _ (pos + 1) e h

lemma readRune_eq_err (u : Unreader) (e : Err)
    (h : (runeLoopOf u).err = some e) :
    u.ReadRune = ((0, 0, some e),
      { (runeLoopOf u).state with runePos := (runeLoopOf u).pos }) := by
  have h2 : (readRuneLoop { u with runePos := 0 } 0 utf8.MaxRune).err = some e := h
  simp only [Unreader.ReadRune, runeLoopOf]
  rw [h2]

lemma readRune_eq_ok (u : Unreader) (h : (runeLoopOf u).err = none) :
    u.ReadRune =
      (((utf8.DecodeRune
            (runeView ((runeLoopOf u).state) ((runeLoopOf u).pos + 1))).1,
        (utf8.DecodeRune
            (runeView ((runeLoopOf u).state) ((runeLoopOf u).pos + 1))).2,
        none),
       { (runeLoopOf u).state with runePos := (runeLoopOf u).pos }) := by
  have h2 : (readRuneLoop { u with runePos := 0 } 0 utf8.MaxRune).err = none := h
  simp only [Unreader.ReadRune, runeLoopOf]
  rw [h2]
  rfl

/-! ## Claim theorems -/

/-- C1 (code bug): the spec says a successful `ReadRune` call consumes
exactly the returned `byteSize` bytes, so that `Unread(byteSize)` restores
the pre-call cursor.  The code decodes `runeBuf[:runePos+1]` — one byte more
than the loop actually read — so on the invalid UTF-8 input `[0xC2, 0x41]`
the call consumes 2 bytes (cursor goes 0 → 2) yet returns `byteSize = 1`
with no error, and `Unread(1)` leaves the cursor at 1, not at the pre-call
value 0. -/
theorem readRune_unread_cursor_bug :
    ((initU 8 [0xC2, 0x41]).ReadRune).1.2.1 = 1 ∧
    ((initU 8 [0xC2, 0x41]).ReadRune).1.2.2 = none ∧
    (initU 8 [0xC2, 0x41]).cursor = 0 ∧
    ((initU 8 [0xC2, 0x41]).ReadRune).2.cursor = 2 ∧
    ((((initU 8 [0xC2, 0x41]).ReadRune).2.Unread 1)).2.cursor = 1 := by
  refine ⟨by decide, by decide, by decide, by decide, by decide⟩

/-- C2: for every reader state and count `c ≥ 0`, `Unread(c)` fails iff the
implied pending span `bytesRead - (cursor - c)` exceeds the buffer's fixed
capacity or its lifetime total-written count; every failure is a
rewind-range error; on failure the whole state is unchanged, and on success
only the cursor moves (to `cursor - c`). -/
theorem unread_rewindRange_spec (u : Unreader) (c : Int) (hc : 0 ≤ c) :
    ((u.Unread c).1.isSome ↔
      u.cb.size < u.bytesRead - (u.cursor - c) ∨
      u.cb.written < u.bytesRead - (u.cursor - c)) ∧
    (∀ e, (u.Unread c).1 = some e → e.isRewindRange = true) ∧
    ((u.Unread c).1.isSome → (u.Unread c).2 = u) ∧
    ((u.Unread c).1 = none →
      (u.Unread c).2 = { u with cursor := u.cursor - c }) := by
  unfold Unreader.Unread
  split_ifs with h1 h2
  · refine ⟨by simp; omega, ?_, fun _ => rfl, by simp⟩
    intro e he
    simp only [Option.some.injEq] at he
    subst he
    rfl
  · refine ⟨by simp; omega, ?_, fun _ => rfl, by simp⟩
    intro e he
    simp only [Option.some.injEq] at he
    subst he
    rfl
  · exact ⟨by simp; omega, by simp, by simp, fun _ => rfl⟩

/-- Witness for C2 at a concrete state: a fresh capacity-4 reader over a
2-byte source and `c = 3` (the call fails: total written 0 < 3). -/
theorem unread_rewindRange_spec_witness :
    0 ≤ (3 : Int) ∧
    ((((initU 4 [1, 2]).Unread 3).1.isSome ↔
        (initU 4 [1, 2]).cb.size <
          (initU 4 [1, 2]).bytesRead - ((initU 4 [1, 2]).cursor - 3) ∨
        (initU 4 [1, 2]).cb.written <
          (initU 4 [1, 2]).bytesRead - ((initU 4 [1, 2]).cursor - 3)) ∧
      (∀ e, ((initU 4 [1, 2]).Unread 3).1 = some e →
        e.isRewindRange = true) ∧
      (((initU 4 [1, 2]).Unread 3).1.isSome →
        ((initU 4 [1, 2]).Unread 3).2 = initU 4 [1, 2]) ∧
      (((initU 4 [1, 2]).Unread 3).1 = none →
        ((initU 4 [1, 2]).Unread 3).2 =
          { initU 4 [1, 2] with cursor := (initU 4 [1, 2]).cursor - 3 })) :=
  ⟨by norm_num, unread_rewindRange_spec (initU 4 [1, 2]) 3 (by norm_num)⟩

/-- C8: `ReadRune` reads input one byte at a time, and the loop performs at
most 4 single-byte `Read` calls (the maximum byte length of an encoded code
point) before decoding: it stops as soon as the accumulated bytes form a
complete encoded code point, which happens after at most 4 bytes, so the
code's `utf8.MaxRune` iteration bound is never the binding one.  The final
scratch fill position is likewise at most 4. -/
theorem readRune_at_most_four_reads (u : Unreader) :
    (runeLoopOf u).reads ≤ 4 ∧ (u.ReadRune).2.runePos ≤ 4 := by
  have hb := readRuneLoop_bounds utf8.MaxRune { u with runePos := 0 } 0
  have hb2 : (runeLoopOf u).pos ≤ 4 := by simpa [runeLoopOf] using hb.2
  refine ⟨by simpa [runeLoopOf] using hb.1, ?_⟩
  cases hloop : (runeLoopOf u).err with
  | some e => rw [readRune_eq_err u e hloop]; simpa using hb2
  | none => rw [readRune_eq_ok u hloop]; simpa using hb2

/-- C9: whenever the byte-at-a-time `Read` inside `ReadRune` reports an
error, `ReadRune` aborts the decode and returns `(0, 0, err)` where `err`
and the post-state (buffer, source, fetch count, counters) are exactly those
of that failing single-byte `Read` — the error is propagated verbatim. -/
theorem readRune_error_propagation (u : Unreader) (e : Err)
    (h : (u.ReadRune).1.2.2 = some e) :
    (u.ReadRune).1.1 = 0 ∧ (u.ReadRune).1.2.1 = 0 ∧
    ∃ v : Unreader, (v.Read 1).2.1 = some e ∧
      (u.ReadRune).2.cb = (v.Read 1).2.2.cb ∧
      (u.ReadRune).2.src = (v.Read 1).2.2.src ∧
      (u.ReadRune).2.fetches = (v.Read 1).2.2.fetches ∧
      (u.ReadRune).2.bytesRead = (v.Read 1).2.2.bytesRead ∧
      (u.ReadRune).2.cursor = (v.Read 1).2.2.cursor := by
  cases hloop : (runeLoopOf u).err with
  | none => rw [readRune_eq_ok u hloop] at h; simp at h
  | some e0 =>
    rw [readRune_eq_err u e0 hloop] at h
    simp only [Option.some.injEq] at h
    subst h
    obtain ⟨v, hv, hstate⟩ :=
      readRuneLoop_err_read utf8.MaxRune { u with runePos := 0 } 0 e0 hloop
    rw [readRune_eq_err u e0 hloop]
    have hs : (runeLoopOf u).state = (v.Read 1).2.2 := hstate
    exact ⟨rfl, rfl, v, hv, by rw [hs], by rw [hs], by rw [hs],
      by rw [hs], by rw [hs]⟩

/-- Witness for C9: a fresh reader over an empty source; the first
single-byte read reports end-of-stream and `ReadRune` returns it. -/
theorem readRune_error_propagation_witness :
    ((initU 4 []).ReadRune).1.2.2 = some Err.eof ∧
    (((initU 4 []).ReadRune).1.1 = 0 ∧ ((initU 4 []).ReadRune).1.2.1 = 0 ∧
      ∃ v : Unreader, (v.Read 1).2.1 = some Err.eof ∧
        ((initU 4 []).ReadRune).2.cb = (v.Read 1).2.2.cb ∧
        ((initU 4 []).ReadRune).2.src = (v.Read 1).2.2.src ∧
        ((initU 4 []).ReadRune).2.fetches = (v.Read 1).2.2.fetches ∧
        ((initU 4 []).ReadRune).2.bytesRead = (v.Read 1).2.2.bytesRead ∧
        ((initU 4 []).ReadRune).2.cursor = (v.Read 1).2.2.cursor) :=
  ⟨by decide, readRune_error_propagation (initU 4 []) Err.eof (by decide)⟩

lemma read_cursor_le (u : Unreader) (k : Nat) (h : u.cursor ≤ u.bytesRead) :
    (u.Read k).2.2.cursor ≤ (u.Read k).2.2.bytesRead := by
  unfold Unreader.Read
  split_ifs with h0 h1
  · exact h
  · simp only
    omega
  · simp only
    have hlt : u.cursor < u.bytesRead := lt_of_le_of_ne h h1
    have hlen : ((u.cb.data.drop
        ((u.cb.data.length : Int) - (u.bytesRead - u.cursor)).toNat).take
          k).length ≤ u.cb.data.length -
        ((u.cb.data.length : Int) - (u.bytesRead - u.cursor)).toNat := by
      simp [List.length_take, List.length_drop]
    omega

lemma readRuneLoop_cursor_le (fuel : Nat) :
    ∀ (u : Unreader) (pos : Nat), u.cursor ≤ u.bytesRead →
      (readRuneLoop u pos fuel).state.cursor ≤
        (readRuneLoop u pos fuel).state.bytesRead := by
  induction fuel with
  | zero => intro u pos h; exact h
  | succ n ih =>
    intro u pos h
    unfold readRuneLoop
    split
    · exact h
    · cases hread : (u.Read 1).2.1 with
      | some e => simp only [hread]; exact read_cursor_le u 1 h
      | none =>
        simp only [hread]
        exact ih _ (pos + 1) (read_cursor_le u 1 h)

lemma readRune_cursor_le (u : Unreader) (h : u.cursor ≤ u.bytesRead) :
    (u.ReadRune).2.cursor ≤ (u.ReadRune).2.bytesRead := by
  have hl := readRuneLoop_cursor_le utf8.MaxRune { u with runePos := 0 } 0 h
  cases hloop : (runeLoopOf u).err with
  | some e => rw [readRune_eq_err u e hloop]; exact hl
  | none => rw [readRune_eq_ok u hloop]; exact hl

lemma unread_cursor_le (u : Unreader) (c : Int) (hc : 0 ≤ c)
    (h : u.cursor ≤ u.bytesRead) :
    (u.Unread c).2.cursor ≤ (u.Unread c).2.bytesRead := by
  unfold Unreader.Unread
  split_ifs <;> simp only <;> omega

lemma run_cursor_le (ops : List Op) :
    ∀ u : Unreader, (∀ op ∈ ops, op.nonnegUnread = true) →
      u.cursor ≤ u.bytesRead →
      (u.run ops).cursor ≤ (u.run ops).bytesRead := by
  induction ops with
  | nil => intro u _ h; exact h
  | cons op ops ih =>
    intro u hops h
    have hop := hops op (List.mem_cons_self op ops)
    have hrest : ∀ o ∈ ops, o.nonnegUnread = true :=
      fun o ho => hops o (List.mem_cons_of_mem op ho)
    refine ih _ hrest ?_
    cases op with
    | read k => exact read_cursor_le u k h
    | unread c =>
      exact unread_cursor_le u c (by simpa [Op.nonnegUnread] using hop) h
    | readRune => exact readRune_cursor_le u h
    | lastBytes n => exact h

/-- C4 (counterexample): with an arbitrary integer argument to `Unread` the
invariant `cursor ≤ fetched` fails.  From a freshly constructed reader
(capacity 1, empty source), the single call `Unread(-1)` passes both range
checks (the pending span `0 - 1 = -1` exceeds neither bound) and moves the
cursor forward to 1 while `bytesRead` stays 0. -/
theorem cursor_le_bytesRead_counterexample :
    NewUnreader 1 [] = some (initU 1 []) ∧
    ((initU 1 []).run [Op.unread (-1)]).bytesRead <
      ((initU 1 []).run [Op.unread (-1)]).cursor := by
  refine ⟨by simp [NewUnreader], by decide⟩

/-- C4 (amended): in every state reachable from a freshly constructed reader
by Read, Unread, ReadRune and LastBytes calls whose `Unread` arguments are
nonnegative, the invariant `cursor ≤ fetched` holds. -/
theorem cursor_le_bytesRead_invariant (size : Int) (s0 : List Nat)
    (ops : List Op) (u0 : Unreader) (h0 : NewUnreader size s0 = some u0)
    (hops : ∀ op ∈ ops, op.nonnegUnread = true) :
    (u0.run ops).Cursor ≤ (u0.run ops).BytesRead := by
  have hinit : u0.cursor ≤ u0.bytesRead := by
    unfold NewUnreader at h0
    split_ifs at h0
    cases h0
    exact le_refl 0
  exact run_cursor_le ops u0 hops hinit

/-- Witness for C4 (amended): capacity 4 over a 2-byte source, with the call
sequence read 2, unread 1, readRune, lastBytes 1. -/
theorem cursor_le_bytesRead_invariant_witness :
    (NewUnreader 4 [9, 7] = some (initU 4 [9, 7]) ∧
      (∀ op ∈ [Op.read 2, Op.unread 1, Op.readRune, Op.lastBytes 1],
        op.nonnegUnread = true)) ∧
    ((initU 4 [9, 7]).run
        [Op.read 2, Op.unread 1, Op.readRune, Op.lastBytes 1]).Cursor ≤
      ((initU 4 [9, 7]).run
        [Op.read 2, Op.unread 1, Op.readRune, Op.lastBytes 1]).BytesRead :=
  ⟨⟨by simp [NewUnreader], by decide⟩,
    cursor_le_bytesRead_invariant 4 [9, 7]
      [Op.read 2, Op.unread 1, Op.readRune, Op.lastBytes 1] (initU 4 [9, 7])
      (by simp [NewUnreader]) (by decide)⟩

lemma read_eq_zero (u : Unreader) : u.Read 0 = ([], none, u) := by
  simp [Unreader.Read]

lemma read_eq_fresh_nil (u : Unreader) (k : Nat) (hk : k ≠ 0)
    (hc : u.cursor = u.bytesRead) (hs : u.src = []) :
    u.Read k = ([], some Err.eof,
      { u with fetches := u.fetches + 1, cb := u.cb.write [] }) := by
  simp [Unreader.Read, sourceRead, hk, hc, hs]

lemma read_eq_fresh (u : Unreader) (k : Nat) (hk : k ≠ 0)
    (hc : u.cursor = u.bytesRead) (hs : u.src ≠ []) :
    u.Read k = (u.src.take k, none,
      { u with
        src := u.src.drop k
        fetches := u.fetches + 1
        cb := u.cb.write (u.src.take k)
        bytesRead := u.bytesRead + (u.src.take k).length
        cursor := u.cursor + (u.src.take k).length }) := by
  simp [Unreader.Read, sourceRead, hk, hc, hs]

lemma read_eq_replay (u : Unreader) (k : Nat) (hk : k ≠ 0)
    (hc : u.cursor ≠ u.bytesRead) :
    u.Read k =
      ((u.cb.data.drop
          ((u.cb.data.length : Int) - (u.bytesRead - u.cursor)).toNat).take k,
        none,
        { u with cursor := u.cursor +
            ((u.cb.data.drop
              ((u.cb.data.length : Int) -
                (u.bytesRead - u.cursor)).toNat).take k).length }) := by
  simp [Unreader.Read, hk, hc]

lemma window_append (s0 : List Nat) (B S n : Nat) (hBn : B + n ≤ s0.length) :
    ((s0.take B).drop (B - S) ++ (s0.take (B + n)).drop B).drop
        (((s0.take B).drop (B - S) ++ (s0.take (B + n)).drop B).length - S) =
      (s0.take (B + n)).drop (B + n - S) := by
  have hTB : (s0.take (B + n)).take B = s0.take B := by
    rw [List.take_take]
    congr 1
    omega
  have hsplit : s0.take (B + n) = s0.take B ++ (s0.take (B + n)).drop B := by
    conv_lhs => rw [← List.take_append_drop B (s0.take (B + n))]
    rw [hTB]
  have hlenB : (s0.take B).length = B := by
    simp [List.length_take]
    omega
  have hlenBn : (s0.take (B + n)).length = B + n := by
    simp [List.length_take]
    omega
  have happ : (s0.take B).drop (B - S) ++ (s0.take (B + n)).drop B =
      (s0.take (B + n)).drop (B - S) := by
    conv_rhs => rw [hsplit]
    rw [List.drop_append_of_le_length (by omega)]
  rw [happ, List.drop_drop]
  congr 1
  simp only [List.length_drop, hlenBn]
  omega

lemma chunk_eq (s0 : List Nat) (B k : Nat) (hB : B ≤ s0.length) :
    (s0.drop B).take k =
      (s0.take (B + ((s0.drop B).take k).length)).drop B := by
  have hn : ((s0.drop B).take k).length = min k (s0.length - B) := by
    simp [List.length_take, List.length_drop]
  rw [List.drop_take]
  have hidx : B + ((s0.drop B).take k).length - B =
      ((s0.drop B).take k).length := by omega
  rw [hidx]
  rcases le_or_lt k (s0.length - B) with hk | hk
  · have hkn : ((s0.drop B).take k).length = k := by omega
    rw [hkn]
  · have hlen : (s0.drop B).length = s0.length - B := by
      simp [List.length_drop]
    rw [List.take_of_length_le (by omega), List.take_of_length_le (by omega)]

lemma src_drop_eq (s0 : List Nat) (B k : Nat) (hB : B ≤ s0.length) :
    (s0.drop B).drop k = s0.drop (B + ((s0.drop B).take k).length) := by
  have hn : ((s0.drop B).take k).length = min k (s0.length - B) := by
    simp [List.length_take, List.length_drop]
  rw [List.drop_drop]
  rcases le_or_lt k (s0.length - B) with hk | hk
  · have hkn : ((s0.drop B).take k).length = k := by omega
    rw [hkn]
  · rw [List.drop_eq_nil_of_le (by omega), List.drop_eq_nil_of_le (by omega)]

lemma readerInv_data_length (s0 : List Nat) (u : Unreader)
    (hu : ReaderInv s0 u) :
    u.cb.data.length =
      u.bytesRead.toNat - (u.bytesRead.toNat - u.cb.size.toNat) := by
  obtain ⟨hbr, hcur, hw, hsz, hlen, hsrc, hdata, hpend⟩ := hu
  rw [hdata]
  simp [List.length_drop, List.length_take]
  omega

lemma readerInv_read (s0 : List Nat) (u : Unreader) (hu : ReaderInv s0 u)
    (k : Nat) : ReaderInv s0 (u.Read k).2.2 := by
  have hdl := readerInv_data_length s0 u hu
  obtain ⟨hbr, hcur, hw, hsz, hlen, hsrc, hdata, hpend⟩ := hu
  rcases Nat.eq_zero_or_pos k with hk | hk
  · subst hk
    rw [read_eq_zero]
    exact ⟨hbr, hcur, hw, hsz, hlen, hsrc, hdata, hpend⟩
  by_cases hfresh : u.cursor = u.bytesRead
  · rcases List.eq_nil_or_concat u.src with hnil | hcc
    · rw [read_eq_fresh_nil u k (by omega) hfresh hnil]
      simp only [ReaderInv]
      refine ⟨hbr, hcur, ?_, hsz, hlen, hsrc, ?_, ?_⟩
      · simp only [CircBuf.write, List.length_nil]
        push_cast
        omega
      · simp only [CircBuf.write, List.append_nil]
        have hz : u.cb.data.length - u.cb.size.toNat = 0 := by omega
        rw [hz, List.drop_zero]
        exact hdata
      · simp only [CircBuf.write, List.append_nil]
        have hz : u.cb.data.length - u.cb.size.toNat = 0 := by omega
        rw [hz, List.drop_zero]
        exact hpend
    · have hne : u.src ≠ [] := by
        obtain ⟨l, b, hl⟩ := hcc
        simp [hl]
      rw [read_eq_fresh u k (by omega) hfresh hne]
      simp only [ReaderInv]
      have hBle : u.bytesRead.toNat ≤ s0.length := hlen
      have hsrclen : u.src.length = s0.length - u.bytesRead.toNat := by
        rw [hsrc]; simp [List.length_drop]
      have hBlt : u.bytesRead.toNat < s0.length := by
        rcases Nat.lt_or_ge u.bytesRead.toNat s0.length with h | h
        · exact h
        · exact absurd (hsrc.trans (List.drop_eq_nil_of_le h)) hne
      have hchunklen : (u.src.take k).length = min k u.src.length := by
        simp [List.length_take]
      have hBn : u.bytesRead.toNat + (u.src.take k).length ≤ s0.length := by
        omega
      have hchunk : u.src.take k =
          (s0.take (u.bytesRead.toNat + (u.src.take k).length)).drop
            u.bytesRead.toNat := by
        conv_lhs => rw [hsrc]
        conv_rhs =>
          rw [show (u.src.take k).length = ((s0.drop u.bytesRead.toNat).take
            k).length from by rw [hsrc]]
        exact chunk_eq s0 u.bytesRead.toNat k hBle
      have hidx : ((u.bytesRead + ((u.src.take k).length : Int)).toNat) =
          u.bytesRead.toNat + (u.src.take k).length := by omega
      have hdata2 : (u.cb.data ++ u.src.take k).drop
          ((u.cb.data ++ u.src.take k).length - u.cb.size.toNat) =
          (s0.take (u.bytesRead.toNat + (u.src.take k).length)).drop
            (u.bytesRead.toNat + (u.src.take k).length - u.cb.size.toNat) := by
        conv_lhs => rw [hdata, hchunk]
        exact window_append s0 u.bytesRead.toNat u.cb.size.toNat
          (u.src.take k).length hBn
      refine ⟨by omega, by omega, ?_, hsz, by omega, ?_, ?_, ?_⟩
      · simp only [CircBuf.write]
        omega
      · conv_lhs => rw [hsrc]
        rw [src_drop_eq s0 u.bytesRead.toNat k hBle, hidx]
        congr 2
        rw [hsrc]
      · simp only [CircBuf.write]
        rw [hidx, hdata2]
      · simp only [CircBuf.write]
        have hlen2 : ((s0.take (u.bytesRead.toNat + (u.src.take k).length)).drop
            (u.bytesRead.toNat + (u.src.take k).length -
              u.cb.size.toNat)).length =
            (u.bytesRead.toNat + (u.src.take k).length) -
              (u.bytesRead.toNat + (u.src.take k).length -
                u.cb.size.toNat) := by
          simp [List.length_drop, List.length_take]
          omega
        rw [hdata2, hlen2]
        omega
  · rw [read_eq_replay u k (by omega) hfresh]
    simp only [ReaderInv]
    refine ⟨hbr, by omega, hw, hsz, hlen, hsrc, hdata, by omega⟩

lemma readerInv_unread (s0 : List Nat) (u : Unreader) (hu : ReaderInv s0 u)
    (c : Int) : ReaderInv s0 (u.Unread c).2 := by
  have hdl := readerInv_data_length s0 u hu
  obtain ⟨hbr, hcur, hw, hsz, hlen, hsrc, hdata, hpend⟩ := hu
  unfold Unreader.Unread
  split_ifs with h1 h2
  · exact ⟨hbr, hcur, hw, hsz, hlen, hsrc, hdata, hpend⟩
  · exact ⟨hbr, hcur, hw, hsz, hlen, hsrc, hdata, hpend⟩
  · simp only [ReaderInv]
    refine ⟨hbr, by omega, hw, hsz, hlen, hsrc, hdata, by omega⟩

lemma readerInv_runeBuf (s0 : List Nat) (u : Unreader) (hu : ReaderInv s0 u)
    (f : Nat → Nat) : ReaderInv s0 { u with runeBuf := f } := hu

lemma readerInv_runePos (s0 : List Nat) (u : Unreader) (hu : ReaderInv s0 u)
    (p : Nat) : ReaderInv s0 { u with runePos := p } := hu

lemma readerInv_loop (s0 : List Nat) (fuel : Nat) :
    ∀ (u : Unreader) (pos : Nat), ReaderInv s0 u →
      ReaderInv s0 (readRuneLoop u pos fuel).state := by
  induction fuel with
  | zero => intro u pos hu; exact hu
  | succ n ih =>
    intro u pos hu
    unfold readRuneLoop
    split
    · exact hu
    · cases hread : (u.Read 1).2.1 with
      | some e => simp only [hread]; exact readerInv_read s0 u hu 1
      | none =>
        simp only [hread]
        exact ih _ (pos + 1)
          (readerInv_runeBuf s0 _ (readerInv_read s0 u hu 1) _)

lemma readerInv_readRune (s0 : List Nat) (u : Unreader)
    (hu : ReaderInv s0 u) : ReaderInv s0 (u.ReadRune).2 := by
  have hl := readerInv_loop s0 utf8.MaxRune { u with runePos := 0 } 0
    (readerInv_runePos s0 u hu 0)
  cases hloop : (runeLoopOf u).err with
  | some e =>
    rw [readRune_eq_err u e hloop]
    exact readerInv_runePos s0 _ hl _
  | none =>
    rw [readRune_eq_ok u hloop]
    exact readerInv_runePos s0 _ hl _

lemma readerInv_applyOp (s0 : List Nat) (u : Unreader) (hu : ReaderInv s0 u)
    (op : Op) : ReaderInv s0 (u.applyOp op) := by
  cases op with
  | read k => exact readerInv_read s0 u hu k
  | unread c => exact readerInv_unread s0 u hu c
  | readRune => exact readerInv_readRune s0 u hu
  | lastBytes n => exact hu

lemma readerInv_run (s0 : List Nat) (ops : List Op) :
    ∀ u : Unreader, ReaderInv s0 u → ReaderInv s0 (u.run ops) := by
  induction ops with
  | nil => intro u hu; exact hu
  | cons op ops ih =>
    intro u hu
    exact ih _ (readerInv_applyOp s0 u hu op)

lemma readerInv_init (s0 : List Nat) (size : Int) (hsz : 0 < size) :
    ReaderInv s0 (initU size s0) := by
  refine ⟨le_refl 0, le_refl 0, rfl, hsz, ?_, ?_, ?_, ?_⟩ <;>
    simp [initU]

lemma readerInv_newUnreader (s0 : List Nat) (size : Int) (u0 : Unreader)
    (h0 : NewUnreader size s0 = some u0) : ReaderInv s0 u0 := by
  unfold NewUnreader at h0
  split_ifs at h0 with h
  cases h0
  exact readerInv_init s0 size (by omega)

/-- C10: in every state reachable from a freshly constructed reader (by any
Read/Unread/ReadRune/LastBytes calls, with arbitrary integer Unread
arguments), the buffer's lifetime total-written count equals the reader's
`bytesRead` counter, and the retained window consists exactly of the last
`min(bytesRead, capacity)` bytes fetched from the source — the buffer is
written only by fresh source fetches. -/
theorem totalWritten_eq_bytesRead (size : Int) (s0 : List Nat) (ops : List Op)
    (u0 : Unreader) (h0 : NewUnreader size s0 = some u0) :
    (u0.run ops).cb.written = (u0.run ops).BytesRead ∧
    (u0.run ops).cb.data =
      (s0.take (u0.run ops).bytesRead.toNat).drop
        ((u0.run ops).bytesRead.toNat - (u0.run ops).cb.size.toNat) := by
  have h := readerInv_run s0 ops u0 (readerInv_newUnreader s0 size u0 h0)
  exact ⟨h.2.2.1, h.2.2.2.2.2.2.1⟩

/-- Witness for C10: capacity 2 over a 3-byte source, with a wrap-around
write (read 3 overflows the capacity-2 buffer) and an unread. -/
theorem totalWritten_eq_bytesRead_witness :
    NewUnreader 2 [5, 6, 7] = some (initU 2 [5, 6, 7]) ∧
    (((initU 2 [5, 6, 7]).run [Op.read 3, Op.unread 1]).cb.written =
        ((initU 2 [5, 6, 7]).run [Op.read 3, Op.unread 1]).BytesRead ∧
      ((initU 2 [5, 6, 7]).run [Op.read 3, Op.unread 1]).cb.data =
        ([5, 6, 7].take
            ((initU 2 [5, 6, 7]).run [Op.read 3, Op.unread 1]).bytesRead.toNat).drop
          (((initU 2 [5, 6, 7]).run [Op.read 3, Op.unread 1]).bytesRead.toNat -
            ((initU 2 [5, 6, 7]).run [Op.read 3, Op.unread 1]).cb.size.toNat)) :=
  ⟨by simp [NewUnreader],
    totalWritten_eq_bytesRead 2 [5, 6, 7] [Op.read 3, Op.unread 1]
      (initU 2 [5, 6, 7]) (by simp [NewUnreader])⟩

/-- C5: in every reachable state with `cursor < fetched`, Read's replay
branch is safe: the start index `len(window) - (fetched - cursor)` lies
between 0 and the window length, the copy delivers `min(k, pending)` bytes,
and the replay read reports no error. -/
theorem replay_branch_safe (size : Int) (s0 : List Nat) (ops : List Op)
    (u0 : Unreader) (k : Nat) (h0 : NewUnreader size s0 = some u0)
    (hlt : (u0.run ops).cursor < (u0.run ops).bytesRead) :
    0 ≤ (((u0.run ops).cb.data.length : Int) -
        ((u0.run ops).bytesRead - (u0.run ops).cursor)) ∧
    (((u0.run ops).cb.data.length : Int) -
        ((u0.run ops).bytesRead - (u0.run ops).cursor)) ≤
      ((u0.run ops).cb.data.length : Int) ∧
    ((u0.run ops).Read k).2.1 = none ∧
    (((u0.run ops).Read k).1).length =
      min k ((u0.run ops).bytesRead - (u0.run ops).cursor).toNat := by
  have h := readerInv_run s0 ops u0 (readerInv_newUnreader s0 size u0 h0)
  have hdl := readerInv_data_length s0 _ h
  obtain ⟨hbr, hcur, hw, hsz, hlen, hsrc, hdata, hpend⟩ := h
  refine ⟨by omega, by omega, ?_⟩
  rcases Nat.eq_zero_or_pos k with hk | hk
  · subst hk
    rw [read_eq_zero]
    simp
  · rw [read_eq_replay (u0.run ops) k (by omega) (by omega)]
    refine ⟨rfl, ?_⟩
    simp only [List.length_take, List.length_drop]
    omega

/-- Witness for C5: after read 3 then unread 2 on a capacity-8 reader over a
5-byte source, the state has `cursor = 1 < 3 = fetched`; a replay read of 2
bytes is in bounds, errorless, and delivers `min(2, 2) = 2` bytes. -/
theorem replay_branch_safe_witness :
    (NewUnreader 8 [1, 2, 3, 4, 5] = some (initU 8 [1, 2, 3, 4, 5]) ∧
      ((initU 8 [1, 2, 3, 4, 5]).run [Op.read 3, Op.unread 2]).cursor <
        ((initU 8 [1, 2, 3, 4, 5]).run [Op.read 3, Op.unread 2]).bytesRead) ∧
    (0 ≤ ((((initU 8 [1, 2, 3, 4, 5]).run
            [Op.read 3, Op.unread 2]).cb.data.length : Int) -
          (((initU 8 [1, 2, 3, 4, 5]).run [Op.read 3, Op.unread 2]).bytesRead -
            ((initU 8 [1, 2, 3, 4, 5]).run [Op.read 3, Op.unread 2]).cursor)) ∧
      ((((initU 8 [1, 2, 3, 4, 5]).run
            [Op.read 3, Op.unread 2]).cb.data.length : Int) -
          (((initU 8 [1, 2, 3, 4, 5]).run [Op.read 3, Op.unread 2]).bytesRead -
            ((initU 8 [1, 2, 3, 4, 5]).run [Op.read 3, Op.unread 2]).cursor)) ≤
        ((((initU 8 [1, 2, 3, 4, 5]).run
            [Op.read 3, Op.unread 2]).cb.data.length : Int)) ∧
      (((initU 8 [1, 2, 3, 4, 5]).run [Op.read 3, Op.unread 2]).Read 2).2.1 =
        none ∧
      ((((initU 8 [1, 2, 3, 4, 5]).run [Op.read 3, Op.unread 2]).Read 2).1).length =
        min 2 (((initU 8 [1, 2, 3, 4, 5]).run [Op.read 3, Op.unread 2]).bytesRead -
          ((initU 8 [1, 2, 3, 4, 5]).run [Op.read 3, Op.unread 2]).cursor).toNat) :=
  ⟨⟨by simp [NewUnreader], by decide⟩,
    replay_branch_safe 8 [1, 2, 3, 4, 5] [Op.read 3, Op.unread 2]
      (initU 8 [1, 2, 3, 4, 5]) 2 (by simp [NewUnreader]) (by decide)⟩

lemma take_take_length (l : List Nat) (k : Nat) :
    l.take k = l.take (l.take k).length := by
  rcases le_or_lt k l.length with h | h
  · have hk : (l.take k).length = k := by
      simp [List.length_take]
      omega
    rw [hk]
  · rw [List.take_of_length_le (by omega),
      List.take_of_length_le (by simp [List.length_take])]

lemma take_chunk_append (s0 ch : List Nat) (B n F : Nat)
    (hch : ch = (s0.drop B).take n) (hBF : B + n ≤ F) :
    ch ++ (s0.drop (B + n)).take (F - (B + n)) = (s0.drop B).take (F - B) := by
  subst hch
  rw [show F - B = n + (F - (B + n)) from by omega]
  rw [List.take_add]
  congr 2
  rw [List.drop_drop]

lemma readAll_spec (s0 : List Nat) (ks : List Nat) :
    ∀ u : Unreader,
      0 ≤ u.bytesRead → u.cursor = u.bytesRead →
      u.src = s0.drop u.bytesRead.toNat → u.bytesRead.toNat ≤ s0.length →
      (u.readAll ks).2.cursor = (u.readAll ks).2.bytesRead ∧
      u.bytesRead ≤ (u.readAll ks).2.bytesRead ∧
      (u.readAll ks).2.src = s0.drop (u.readAll ks).2.bytesRead.toNat ∧
      (u.readAll ks).2.bytesRead.toNat ≤ s0.length ∧
      (u.readAll ks).1 = (s0.drop u.bytesRead.toNat).take
        ((u.readAll ks).2.bytesRead.toNat - u.bytesRead.toNat) := by
  induction ks with
  | nil =>
    intro u h1 h2 h3 h4
    refine ⟨h2, le_refl _, h3, h4, ?_⟩
    simp [Unreader.readAll]
  | cons k ks ih =>
    intro u h1 h2 h3 h4
    rcases Nat.eq_zero_or_pos k with hk | hk
    · subst hk
      have hr : u.Read 0 = ([], none, u) := read_eq_zero u
      simp only [Unreader.readAll, hr]
      simpa using ih u h1 h2 h3 h4
    rcases List.eq_nil_or_concat u.src with hnil | hcc
    · have hr := read_eq_fresh_nil u k (by omega) h2 hnil
      simp only [Unreader.readAll, hr]
      simpa using ih
        { u with fetches := u.fetches + 1, cb := u.cb.write [] } h1 h2 h3 h4
    · have hne : u.src ≠ [] := by
        obtain ⟨l, b, hl⟩ := hcc
        simp [hl]
      have hr := read_eq_fresh u k (by omega) h2 hne
      simp only [Unreader.readAll, hr]
      have hBle : u.bytesRead.toNat ≤ s0.length := h4
      have hsrclen : u.src.length = s0.length - u.bytesRead.toNat := by
        rw [h3]; simp [List.length_drop]
      have hchunklen : (u.src.take k).length = min k u.src.length := by
        simp [List.length_take]
      have hidx : ((u.bytesRead + ((u.src.take k).length : Int)).toNat) =
          u.bytesRead.toNat + (u.src.take k).length := by omega
      have hsrc2 : u.src.drop k =
          s0.drop (u.bytesRead.toNat + (u.src.take k).length) := by
        conv_lhs => rw [h3]
        rw [src_drop_eq s0 u.bytesRead.toNat k hBle]
        congr 2
        rw [h3]
      obtain ⟨ih1, ih2, ih3, ih4, ih5⟩ := ih
        { u with
          src := u.src.drop k
          fetches := u.fetches + 1
          cb := u.cb.write (u.src.take k)
          bytesRead := u.bytesRead + (u.src.take k).length
          cursor := u.cursor + (u.src.take k).length }
        (by dsimp only; omega)
        (by dsimp only; omega)
        (by dsimp only; rw [hidx]; exact hsrc2)
        (by dsimp only; omega)
      dsimp only at ih2 ih5
      rw [hidx] at ih5
      refine ⟨ih1, by omega, ih3, ih4, ?_⟩
      rw [ih5]
      have hchunk2 : u.src.take k =
          (s0.drop u.bytesRead.toNat).take (u.src.take k).length := by
        conv_lhs => rw [h3]
        conv_rhs =>
          rw [show (u.src.take k).length =
            ((s0.drop u.bytesRead.toNat).take k).length from by rw [h3]]
        exact take_take_length (s0.drop u.bytesRead.toNat) k
      exact take_chunk_append s0 (u.src.take k) u.bytesRead.toNat
        ((u.src.take k).length) _ hchunk2 (by omega)

/-- C6: for every sequence of Read calls from a freshly constructed reader
with no intervening Unread, `Cursor() = BytesRead()` holds afterwards (and
hence after each call, by instantiating the prefix), and the concatenation
of the bytes delivered to the caller is exactly the prefix of the source
stream that was fetched, in order. -/
theorem reads_without_unread_faithful (size : Int) (s0 : List Nat)
    (ks : List Nat) (u0 : Unreader) (h0 : NewUnreader size s0 = some u0) :
    (u0.readAll ks).2.Cursor = (u0.readAll ks).2.BytesRead ∧
    (u0.readAll ks).1 = s0.take (u0.readAll ks).2.bytesRead.toNat := by
  have hu0 : u0 = initU size s0 := by
    unfold NewUnreader at h0
    split_ifs at h0
    cases h0
    rfl
  subst hu0
  obtain ⟨h1, _, _, _, h5⟩ := readAll_spec s0 ks (initU size s0)
    (le_refl 0) rfl (by simp [initU]) (by simp [initU])
  refine ⟨h1, ?_⟩
  rw [h5]
  simp [initU]

/-- Witness for C6: capacity 4 over a 3-byte source, two reads of 2 bytes
(the second hits end-of-stream and delivers only 1 byte). -/
theorem reads_without_unread_faithful_witness :
    NewUnreader 4 [1, 2, 3] = some (initU 4 [1, 2, 3]) ∧
    (((initU 4 [1, 2, 3]).readAll [2, 2]).2.Cursor =
        ((initU 4 [1, 2, 3]).readAll [2, 2]).2.BytesRead ∧
      ((initU 4 [1, 2, 3]).readAll [2, 2]).1 =
        [1, 2, 3].take ((initU 4 [1, 2, 3]).readAll [2, 2]).2.bytesRead.toNat) :=
  ⟨by simp [NewUnreader],
    reads_without_unread_faithful 4 [1, 2, 3] [2, 2] (initU 4 [1, 2, 3])
      (by simp [NewUnreader])⟩

/-- C7: for a reader state whose pending span is well-formed (nonnegative
and within the retained window — true of every reachable state) and any
`n ≥ 0`, `LastBytes(n)` returns exactly the last `min(n, window - pending)`
bytes of the buffer's retained window with the trailing `pending` bytes
excluded: never more than `n` bytes and never more than are retained before
the pending-replay boundary.  It takes no state and returns the same value
on repeated calls (it is a pure function of the state). -/
theorem lastBytes_window_spec (u : Unreader) (n : Int) (hn : 0 ≤ n)
    (h0 : 0 ≤ u.bytesRead - u.cursor)
    (h1 : u.bytesRead - u.cursor ≤ (u.cb.data.length : Int)) :
    u.LastBytes n = lastBytesSpec u n ∧
    (u.LastBytes n).length ≤ n.toNat ∧
    (u.LastBytes n).length =
      min n.toNat (u.cb.data.length - (u.bytesRead - u.cursor).toNat) := by
  simp only [Unreader.LastBytes, lastBytesSpec, Unreader.Bytes]
  have hwlen : (u.cb.data.take (u.cb.data.length -
      (u.bytesRead - u.cursor).toNat)).length =
      u.cb.data.length - (u.bytesRead - u.cursor).toNat := by
    simp [List.length_take]
  have he : ((u.cb.data.length : Int) - (u.bytesRead - u.cursor)).toNat =
      u.cb.data.length - (u.bytesRead - u.cursor).toNat := by omega
  have hs : ((if (u.cb.data.length : Int) - (u.bytesRead - u.cursor) - n > 0
      then (u.cb.data.length : Int) - (u.bytesRead - u.cursor) - n
      else 0) : Int).toNat =
      (u.cb.data.length - (u.bytesRead - u.cursor).toNat) - n.toNat := by
    split_ifs with hif <;> omega
  rw [he, hs, hwlen]
  refine ⟨rfl, ?_, ?_⟩ <;>
  · simp only [List.length_drop, List.length_take]
    omega

/-- Witness for C7: after read 3 then unread 1 on a capacity-4 reader over a
3-byte source (window `[1,2,3]`, pending 1), `LastBytes 2` returns the last
2 bytes before the pending boundary. -/
theorem lastBytes_window_spec_witness :
    (0 ≤ (2 : Int) ∧
      0 ≤ ((initU 4 [1, 2, 3]).run [Op.read 3, Op.unread 1]).bytesRead -
        ((initU 4 [1, 2, 3]).run [Op.read 3, Op.unread 1]).cursor ∧
      ((initU 4 [1, 2, 3]).run [Op.read 3, Op.unread 1]).bytesRead -
        ((initU 4 [1, 2, 3]).run [Op.read 3, Op.unread 1]).cursor ≤
        ((((initU 4 [1, 2, 3]).run
          [Op.read 3, Op.unread 1]).cb.data.length : Int))) ∧
    (((initU 4 [1, 2, 3]).run [Op.read 3, Op.unread 1]).LastBytes 2 =
        lastBytesSpec ((initU 4 [1, 2, 3]).run [Op.read 3, Op.unread 1]) 2 ∧
      (((initU 4 [1, 2, 3]).run [Op.read 3, Op.unread 1]).LastBytes 2).length ≤
        (2 : Int).toNat ∧
      (((initU 4 [1, 2, 3]).run [Op.read 3, Op.unread 1]).LastBytes 2).length =
        min (2 : Int).toNat
          (((initU 4 [1, 2, 3]).run [Op.read 3, Op.unread 1]).cb.data.length -
            (((initU 4 [1, 2, 3]).run [Op.read 3, Op.unread 1]).bytesRead -
              ((initU 4 [1, 2, 3]).run
                [Op.read 3, Op.unread 1]).cursor).toNat)) :=
  ⟨⟨by norm_num, by decide, by decide⟩,
    lastBytes_window_spec ((initU 4 [1, 2, 3]).run [Op.read 3, Op.unread 1]) 2
      (by norm_num) (by decide) (by decide)⟩

lemma replay_window_drop (s0 : List Nat) (B S pn : Nat)
    (hB : B ≤ s0.length) (hpn : pn ≤ B) (hpnS : pn ≤ S) :
    ((s0.take B).drop (B - S)).drop
        (((((s0.take B).drop (B - S)).length : Int) - (pn : Int)).toNat) =
      (s0.drop (B - pn)).take pn := by
  have hlenB : (s0.take B).length = B := by
    simp [List.length_take]
    omega
  have hl : ((s0.take B).drop (B - S)).length = B - (B - S) := by
    simp [List.length_drop, hlenB]
  have hidx : (((((s0.take B).drop (B - S)).length : Int) - (pn : Int)).toNat)
      = (B - (B - S)) - pn := by
    rw [hl]; omega
  rw [hidx, List.drop_drop]
  have h2 : (B - S) + ((B - (B - S)) - pn) = B - pn := by omega
  rw [h2, List.drop_take]
  congr 1
  omega

/-- C3: after any successful `Unread(c)` with `c ≥ 1` in a reachable state,
an immediately following `Read` into a span of length `c` returns exactly
`c` bytes — the `c` source-stream bytes immediately preceding the pre-Unread
cursor, i.e. the bytes most recently delivered at those positions — with no
error, and without querying the underlying source (the fetch count is
unchanged). -/
theorem unread_then_read_replays (size : Int) (s0 : List Nat) (ops : List Op)
    (u0 : Unreader) (h0 : NewUnreader size s0 = some u0)
    (hops : ∀ op ∈ ops, op.nonnegUnread = true) (c : Int) (hc : 1 ≤ c)
    (hok : ((u0.run ops).Unread c).1 = none) :
    (((u0.run ops).Unread c).2.Read c.toNat).1 =
      (s0.drop ((u0.run ops).cursor - c).toNat).take c.toNat ∧
    ((((u0.run ops).Unread c).2.Read c.toNat).1).length = c.toNat ∧
    (((u0.run ops).Unread c).2.Read c.toNat).2.1 = none ∧
    (((u0.run ops).Unread c).2.Read c.toNat).2.2.fetches =
      (u0.run ops).fetches := by
  have hinv := readerInv_run s0 ops u0 (readerInv_newUnreader s0 size u0 h0)
  have hdl := readerInv_data_length s0 _ hinv
  have hcle : (u0.run ops).cursor ≤ (u0.run ops).bytesRead := by
    refine run_cursor_le ops u0 hops ?_
    unfold NewUnreader at h0
    split_ifs at h0
    cases h0
    exact le_refl 0
  obtain ⟨hbr, hcur, hw, hsz, hlen, hsrc, hdata, hpend⟩ := hinv
  have hcond : (u0.run ops).bytesRead - ((u0.run ops).cursor - c) ≤
        (u0.run ops).cb.written ∧
      (u0.run ops).bytesRead - ((u0.run ops).cursor - c) ≤
        (u0.run ops).cb.size ∧
      ((u0.run ops).Unread c).2 =
        { u0.run ops with cursor := (u0.run ops).cursor - c } := by
    unfold Unreader.Unread at hok ⊢
    split_ifs at hok ⊢ with hA hB
    exact ⟨by omega, by omega, rfl⟩
  rw [hcond.2.2]
  rw [read_eq_replay _ c.toNat (by omega) (by dsimp only; omega)]
  dsimp only
  -- name the pending span after the unread
  have hpn1 : 1 ≤ (u0.run ops).bytesRead - ((u0.run ops).cursor - c) := by
    omega
  have hcast : (u0.run ops).bytesRead - ((u0.run ops).cursor - c) =
      (((u0.run ops).bytesRead - ((u0.run ops).cursor - c)).toNat : Int) := by
    omega
  have hout : (u0.run ops).cb.data.drop
      ((((u0.run ops).cb.data.length : Int) -
        ((u0.run ops).bytesRead - ((u0.run ops).cursor - c))).toNat) =
      (s0.drop ((u0.run ops).bytesRead.toNat -
          ((u0.run ops).bytesRead - ((u0.run ops).cursor - c)).toNat)).take
        (((u0.run ops).bytesRead - ((u0.run ops).cursor - c)).toNat) := by
    conv_lhs => rw [hcast, hdata]
    exact replay_window_drop s0 (u0.run ops).bytesRead.toNat
      (u0.run ops).cb.size.toNat
      (((u0.run ops).bytesRead - ((u0.run ops).cursor - c)).toNat)
      hlen (by omega) (by omega)
  rw [hout, List.take_take]
  have hmin : min c.toNat
      (((u0.run ops).bytesRead - ((u0.run ops).cursor - c)).toNat) =
      c.toNat := by omega
  have hpos : (u0.run ops).bytesRead.toNat -
      (((u0.run ops).bytesRead - ((u0.run ops).cursor - c)).toNat) =
      ((u0.run ops).cursor - c).toNat := by omega
  rw [hmin, hpos]
  refine ⟨rfl, ?_, rfl, rfl⟩
  simp only [List.length_take, List.length_drop]
  omega

/-- Witness for C3: read 3 bytes of a 5-byte source (capacity 8), unread 2,
then read 2 — the replay returns bytes 2 and 3 of the stream, with the fetch
count unchanged. -/
theorem unread_then_read_replays_witness :
    (NewUnreader 8 [1, 2, 3, 4, 5] = some (initU 8 [1, 2, 3, 4, 5]) ∧
      (∀ op ∈ [Op.read 3], op.nonnegUnread = true) ∧
      (1 : Int) ≤ 2 ∧
      ((((initU 8 [1, 2, 3, 4, 5]).run [Op.read 3]).Unread 2)).1 = none) ∧
    (((((initU 8 [1, 2, 3, 4, 5]).run [Op.read 3]).Unread 2).2.Read
          (2 : Int).toNat).1 =
        ([1, 2, 3, 4, 5].drop
            (((initU 8 [1, 2, 3, 4, 5]).run [Op.read 3]).cursor - 2).toNat).take
          (2 : Int).toNat ∧
      (((((initU 8 [1, 2, 3, 4, 5]).run [Op.read 3]).Unread 2).2.Read
          (2 : Int).toNat).1).length = (2 : Int).toNat ∧
      ((((initU 8 [1, 2, 3, 4, 5]).run [Op.read 3]).Unread 2).2.Read
          (2 : Int).toNat).2.1 = none ∧
      ((((initU 8 [1, 2, 3, 4, 5]).run [Op.read 3]).Unread 2).2.Read
          (2 : Int).toNat).2.2.fetches =
        ((initU 8 [1, 2, 3, 4, 5]).run [Op.read 3]).fetches) :=
  ⟨⟨by simp [NewUnreader], by decide, by norm_num, by decide⟩,
    unread_then_read_replays 8 [1, 2, 3, 4, 5] [Op.read 3]
      (initU 8 [1, 2, 3, 4, 5]) (by simp [NewUnreader]) (by decide) 2
      (by norm_num) (by decide)⟩
